import Mathlib

/-!
# Verification of the pesticide-analyte reference reconciliation pipeline

Shallow embedding of the core components of the PopHealth-Observatory
pesticide pipeline, translated from the Python sources:

* `pophealth_observatory/pesticide_context.py` — `_normalize`, the cascading
  loader `load_analyte_reference`, `find_analyte`, `suggest_analytes`;
* `scripts/pesticides/enrich_classification_round.py` — `_normalize_name`,
  `_compute_similarity_score`, `find_classification_candidates`,
  `log_evidence`;
* `scripts/pesticides/expand_synonyms_via_pubchem.py` — `fetch_pubchem_synonyms`;
* `scripts/pesticides/build_minimal_pesticide_reference.py` — the curated-CAS
  join inside `main` (`cas_map`, `find_cas`, and the `cas_verified_source`
  assignment).

Python strings are modelled as `List Char` (ASCII behaviour of `str.lower`
and of the regex character classes), floats produced by exact integer
divisions as `ℚ` via `mkRat`, the file system as an existence predicate,
and the HTTP layer as an oracle of per-attempt outcomes.
-/

/-! ## Character primitives (ASCII model of Python `str.lower` and regex classes) -/

/-- ASCII lowercasing, the behaviour of Python `str.lower()` on ASCII input. -/
def pyLower (c : Char) : Char :=
  if 65 ≤ c.toNat ∧ c.toNat ≤ 90 then Char.ofNat (c.toNat + 32) else c

/-- Characters kept by the strict normalizer regex `[^a-z0-9]` (deleted chars
are its complement): lowercase ASCII letters and digits. -/
def isLowerAlnumCh (c : Char) : Bool :=
  (97 ≤ c.toNat && c.toNat ≤ 122) || (48 ≤ c.toNat && c.toNat ≤ 57)

/-- ASCII word characters, Python regex `\w` (ASCII fragment): `[A-Za-z0-9_]`. -/
def isWordCh (c : Char) : Bool := c.isAlphanum || c == '_'

/-- ASCII whitespace, Python regex `\s`: space, tab, newline, carriage
return, vertical tab, form feed. -/
def isSpaceCh (c : Char) : Bool :=
  c == ' ' || c == '\t' || c == '\n' || c == '\r' || c == '\x0b' || c == '\x0c'

/-- Characters kept by `_normalize_name`'s regex `[^\w\s,-]`: word characters,
whitespace, comma and hyphen ("keep hyphens for chemical names like 2,4-D"). -/
def keepNameCh (c : Char) : Bool := isWordCh c || isSpaceCh c || c == ',' || c == '-'

/-! ## The strict normalizer `_normalize` (pesticide_context.py, lines 100–110)

`re.sub(r"[^a-z0-9]", "", s.lower())`: lowercase, then drop every character
that is not a lowercase ASCII letter or digit. -/

def normStrict (l : List Char) : List Char := (l.map pyLower).filter isLowerAlnumCh

/-! ## The punctuation-light normalizer `_normalize_name`
(enrich_classification_round.py, lines 155–165)

Lowercase, delete characters outside `[\w\s,-]`, collapse each whitespace
run to a single space (`re.sub(r"\s+", " ", ·)`), and strip leading/trailing
whitespace. -/

/-- One left-to-right pass of `re.sub(r"\s+", " ", ·)`: each maximal
whitespace run becomes one `' '`.  `inRun` records whether the previous
character belonged to a whitespace run. -/
def squeezeGo : Bool → List Char → List Char
  | _, [] => []
  | inRun, c :: cs =>
    if isSpaceCh c then
      (if inRun then squeezeGo true cs else ' ' :: squeezeGo true cs)
    else c :: squeezeGo false cs

def squeezeSpaces (l : List Char) : List Char := squeezeGo false l

/-- Python `str.strip()`: drop leading and trailing whitespace. -/
def stripWS (l : List Char) : List Char :=
  ((l.dropWhile isSpaceCh).reverse.dropWhile isSpaceCh).reverse

/-- `_normalize_name` from enrich_classification_round.py. -/
def normalizeName (l : List Char) : List Char :=
  if l = [] then []
  else stripWS (squeezeSpaces ((l.map pyLower).filter keepNameCh))

/-- Canonical-whitespace check: every whitespace character is `' '` and no
whitespace character directly follows one (`prevSp` carries the flag in). -/
def wsOkGo : Bool → List Char → Bool
  | _, [] => true
  | prevSp, c :: cs =>
    if isSpaceCh c then ((c == ' ') && !prevSp) && wsOkGo true cs
    else wsOkGo false cs

/-! ## Python substring containment (`needle in hay`) -/

def isPrefixChk : List Char → List Char → Bool
  | [], _ => true
  | _ :: _, [] => false
  | a :: as, b :: bs => a == b && isPrefixChk as bs

/-- Python's substring test `needle in hay` on strings. -/
def isSubstr (needle : List Char) : List Char → Bool
  | [] => isPrefixChk needle []
  | b :: bs => isPrefixChk needle (b :: bs) || isSubstr needle bs

/-! ## The reference entity (pesticide_context.py `PesticideAnalyte` dataclass) -/

structure PesticideAnalyte where
  variable_name : String
  analyte_name : String
  cas_rn : String
  cas_verified_source : String
  matrix : String
  unit : String
  cycle_first : Int
  cycle_last : Int
  cycle_count : Int
  data_file_description : String
  chemical_class : String := ""
  chemical_subclass : String := ""
  classification_source : String := ""
deriving DecidableEq

/-! ## The Cascading Loader (pesticide_context.py, lines 113–171)

File-system contents are a parameter `fsEx : String → Bool` (does this path
exist?); the results of `DATA_REFERENCE_DIR.rglob("pesticide_reference_*.csv")`
are a parameter `globExtras` in discovery order.  The function returns the
path whose contents are parsed, or the path named by the final
`FileNotFoundError`. -/

def REFERENCE_CSV : String := "data/reference/minimal/pesticide_reference_minimal.csv"

def REFERENCE_CSV_CLASSIFIED : String := "data/reference/classified/pesticide_reference_classified.csv"

def REFERENCE_CSV_SHIM : String := "data/reference/pesticide_reference.csv"

def LEGACY_FLAT_MINIMAL : String := "data/reference/pesticide_reference_minimal.csv"

def LEGACY_FLAT_CLASSIFIED : String := "data/reference/pesticide_reference_classified.csv"

def fixedCandidates : List String :=
  [REFERENCE_CSV_CLASSIFIED, REFERENCE_CSV, REFERENCE_CSV_SHIM,
   LEGACY_FLAT_MINIMAL, LEGACY_FLAT_CLASSIFIED]

/-- `for extra in rglob(...): if extra not in candidates: candidates.append(extra)` —
each glob hit is checked against the list grown so far. -/
def appendExtras (cands : List String) : List String → List String
  | [] => cands
  | e :: es => appendExtras (if e ∈ cands then cands else cands ++ [e]) es

/-- The cascade block (`if path == REFERENCE_CSV: ... for candidate in
candidates: if candidate.exists(): path = candidate; break`). -/
def cascadeStep (fsEx : String → Bool) (globExtras : List String) (path : String) : String :=
  if path = REFERENCE_CSV then
    match (appendExtras fixedCandidates globExtras).find? fsEx with
    | some c => c
    | none => path
  else path

/-- The explicit-path fallback block (`if not path.exists(): for candidate in
[shim, legacy flat minimal]: ...`). -/
def fallbackStep (fsEx : String → Bool) (path : String) : String :=
  if fsEx path then path
  else match [REFERENCE_CSV_SHIM, LEGACY_FLAT_MINIMAL].find? fsEx with
    | some c => c
    | none => path

def resolveReference (fsEx : String → Bool) (globExtras : List String)
    (path : String) : Except String String :=
  if fsEx (fallbackStep fsEx (cascadeStep fsEx globExtras path)) then
    .ok (fallbackStep fsEx (cascadeStep fsEx globExtras path))
  else .error (fallbackStep fsEx (cascadeStep fsEx globExtras path))

/-! ## `find_analyte` (pesticide_context.py, lines 272–291) -/

def matchesQuery (qn : List Char) (a : PesticideAnalyte) : Bool :=
  qn == normStrict a.analyte_name.data || qn == normStrict a.cas_rn.data ||
    qn == normStrict a.variable_name.data

def findAnalyteGo (qn : List Char) : List PesticideAnalyte → Option PesticideAnalyte
  | [] => none
  | a :: rest => if matchesQuery qn a then some a else findAnalyteGo qn rest

def findAnalyte (query : String) (analytes : List PesticideAnalyte) :
    Option PesticideAnalyte :=
  findAnalyteGo (normStrict query.data) analytes

/-! ## `suggest_analytes` (pesticide_context.py, lines 294–319) -/

/-- `best[label] = (score, label)` with dict semantics: an existing key keeps
its position, a new key is appended; the stored score is only lowered. -/
def updateBest (score : Nat) (label : String) :
    List (Nat × String) → List (Nat × String)
  | [] => [(score, label)]
  | (s0, l0) :: rest =>
    if l0 = label then (if score < s0 then (score, label) else (s0, l0)) :: rest
    else (s0, l0) :: updateBest score label rest

def collectBest (p : List Char) : List PesticideAnalyte → List (Nat × String) →
    List (Nat × String)
  | [], acc => acc
  | a :: rest, acc =>
    if a.analyte_name = "" then collectBest p rest acc
    else if isSubstr p (normStrict a.analyte_name.data) then
      collectBest p rest
        (updateBest ((normStrict a.analyte_name.data).length - p.length) a.analyte_name acc)
    else collectBest p rest acc

/-- Ascending-by-score ordering used by `sorted(best.values(), key=lambda x: x[0])`. -/
def scoreLE (x y : Nat × String) : Prop := x.1 ≤ y.1

instance : DecidableRel scoreLE := fun x y => Nat.decLe x.1 y.1

instance : IsTotal (Nat × String) scoreLE where
  total x y := Nat.le_total x.1 y.1

instance : IsTrans (Nat × String) scoreLE where
  trans _ _ _ hxy hyz := Nat.le_trans hxy hyz

def suggestAnalytes (part : String) (analytes : List PesticideAnalyte)
    (limit : Nat) : List String :=
  if normStrict part.data = [] then []
  else
    ((List.insertionSort scoreLE
      (collectBest (normStrict part.data) analytes [])).take limit).map Prod.snd

/-! ## The Classification Matcher (enrich_classification_round.py)

`_compute_similarity_score` (lines 168–199), `find_classification_candidates`
(lines 202–257) and `log_evidence` (lines 279–349).  Python float division of
non-negative integers is modelled exactly as `ℚ` via `mkRat`; a Python set of
strings is a `List String` queried only through membership. -/

/-- Python `str.split()`: split on whitespace runs, dropping empty pieces.
`cur` accumulates the current word reversed. -/
def splitPyGo : List Char → List Char → List (List Char)
  | cur, [] => if cur = [] then [] else [cur.reverse]
  | cur, c :: cs =>
    if isSpaceCh c then
      (if cur = [] then splitPyGo [] cs else cur.reverse :: splitPyGo [] cs)
    else splitPyGo (c :: cur) cs

def splitPy (l : List Char) : List (List Char) := splitPyGo [] l

/-- `_compute_similarity_score(query, candidate)`. -/
def computeSimilarityScore (query candidate : List Char) : ℚ :=
  let qn := normalizeName query
  let cn := normalizeName candidate
  if qn = [] ∨ cn = [] then 0
  else if qn = cn then 1
  else if isSubstr qn cn ∨ isSubstr cn qn then
    mkRat (min qn.length cn.length) (max qn.length cn.length)
  else
    let qt := (splitPy qn).toFinset
    let ct := (splitPy cn).toFinset
    if qt = ∅ ∨ ct = ∅ then 0
    else if qt ∪ ct = ∅ then 0
    else mkRat ((qt ∩ ct).card) ((qt ∪ ct).card)

/-- A CDC classification tuple `(cdc_name, chemical_class, chemical_subclass)`. -/
structure CdcEntry where
  cdc_name : String
  chemical_class : String
  chemical_subclass : String
deriving DecidableEq

/-- A candidate tuple `(cdc_name, chemical_class, chemical_subclass, score,
match_method)`. -/
structure Candidate where
  cdc_name : String
  chemical_class : String
  chemical_subclass : String
  score : ℚ
  match_method : String
deriving DecidableEq

/-- The PubChem synonym index `normalized synonym → set of analyte names`,
as an association list with the dict's key order. -/
def SynMap : Type := List (List Char × List String)

def lookupSyn (m : SynMap) (k : List Char) : Option (List String) :=
  ((m : List (List Char × List String)).find? (fun e => e.1 == k)).map (fun e => e.2)

/-- Strategy 1: exact synonym match via PubChem (score 1.0) — the analyte's
normalized name and the CDC name's normalized form are both synonym-index
keys whose synonym sets intersect. -/
def strategy1 (analyte : String) (cdc : List CdcEntry) (syn : SynMap) : List Candidate :=
  match lookupSyn syn (normalizeName analyte.data) with
  | none => []
  | some matched =>
    cdc.filterMap (fun e =>
      match lookupSyn syn (normalizeName e.cdc_name.data) with
      | some s =>
        if s.any (fun x => matched.contains x) then
          some ⟨e.cdc_name, e.chemical_class, e.chemical_subclass, 1, "pubchem_synonym"⟩
        else none
      | none => none)

/-- Strategy 2: direct CDC name comparison — normalized equality gives an
`exact_match`; otherwise the raw analyte name appearing in the CDC name's
synonym set gives a `pubchem_synonym`. -/
def strategy2 (analyte : String) (cdc : List CdcEntry) (syn : SynMap) : List Candidate :=
  cdc.filterMap (fun e =>
    if normalizeName e.cdc_name.data = normalizeName analyte.data then
      some ⟨e.cdc_name, e.chemical_class, e.chemical_subclass, 1, "exact_match"⟩
    else
      match lookupSyn syn (normalizeName e.cdc_name.data) with
      | some s =>
        if s.contains analyte then
          some ⟨e.cdc_name, e.chemical_class, e.chemical_subclass, 1, "pubchem_synonym"⟩
        else none
      | none => none)

/-- Strategy 3: fuzzy fallback, keeping candidates with `score >= threshold`. -/
def strategy3 (analyte : String) (cdc : List CdcEntry) (threshold : ℚ) : List Candidate :=
  cdc.filterMap (fun e =>
    if threshold ≤ computeSimilarityScore analyte.data e.cdc_name.data then
      some ⟨e.cdc_name, e.chemical_class, e.chemical_subclass,
        computeSimilarityScore analyte.data e.cdc_name.data, "fuzzy"⟩
    else none)

/-- `method_priority = {"pubchem_synonym": 0, "exact_match": 1, "fuzzy": 2}`
with `.get(x, 99)`. -/
def methodPriority (m : String) : Nat :=
  if m = "pubchem_synonym" then 0
  else if m = "exact_match" then 1
  else if m = "fuzzy" then 2
  else 99

/-- The sort order `key=lambda x: (-x[3], method_priority.get(x[4], 99))`:
score descending, ties by method priority ascending. -/
def candLE (a b : Candidate) : Prop :=
  b.score < a.score ∨
    (a.score = b.score ∧ methodPriority a.match_method ≤ methodPriority b.match_method)

instance : DecidableRel candLE := fun a b => by
  unfold candLE
  infer_instance

instance : IsTotal Candidate candLE where
  total a b := by
    unfold candLE
    rcases lt_trichotomy a.score b.score with h | h | h
    · exact Or.inr (Or.inl h)
    · rcases Nat.le_total (methodPriority a.match_method) (methodPriority b.match_method)
        with h2 | h2
      · exact Or.inl (Or.inr ⟨h, h2⟩)
      · exact Or.inr (Or.inr ⟨h.symm, h2⟩)
    · exact Or.inl (Or.inl h)

instance : IsTrans Candidate candLE where
  trans a b c hab hbc := by
    unfold candLE at *
    rcases hab with h | ⟨h, h2⟩ <;> rcases hbc with h' | ⟨h', h2'⟩
    · exact Or.inl (h'.trans h)
    · exact Or.inl (h' ▸ h)
    · exact Or.inl (h ▸ h')
    · exact Or.inr ⟨h.trans h', h2.trans h2'⟩

/-- `find_classification_candidates(analyte_name, cdc_list, synonym_map,
threshold)`.  Strategies 1 and 2 both always run; strategy 3 runs only when
they produced nothing; the combined list is sorted by the stable sort key.
(Python's stable `list.sort` coincides with stable insertion sort.) -/
def findClassificationCandidates (analyte : String) (cdc : List CdcEntry)
    (syn : SynMap) (threshold : ℚ) : List Candidate :=
  List.insertionSort candLE
    (if strategy1 analyte cdc syn ++ strategy2 analyte cdc syn = []
     then strategy3 analyte cdc threshold
     else strategy1 analyte cdc syn ++ strategy2 analyte cdc syn)

/-! ## The Evidence Logger `log_evidence` (lines 279–349)

A CSV data row of `unclassified_<date>.csv`; the file contents are the header
plus the rows returned here, written once per run (mode `"w"`). -/

structure EvidenceRow where
  variable_name : String
  analyte_name : String
  normalized_name : List Char
  candidate_cdc_name : String
  candidate_class : String
  candidate_subclass : String
  similarity_score : ℚ
  match_method : String
deriving DecidableEq

/-- An input record as read from the minimal reference CSV (the fields
`log_evidence` reads). -/
structure RefRow where
  variable_name : String
  analyte_name : String
  chemical_class : String := ""
deriving DecidableEq

def evidenceRowFor (cdc : List CdcEntry) (syn : SynMap) (a : RefRow) : EvidenceRow :=
  match findClassificationCandidates a.analyte_name cdc syn (mkRat 1 4) with
  | c :: _ =>
    ⟨a.variable_name, a.analyte_name, normalizeName a.analyte_name.data,
     c.cdc_name, c.chemical_class, c.chemical_subclass, c.score, c.match_method⟩
  | [] =>
    ⟨a.variable_name, a.analyte_name, normalizeName a.analyte_name.data,
     "", "", "", 0, "none"⟩

/-- `log_evidence`: one `writer.writerow` per unclassified record, appended in
order to the fresh file. -/
def logEvidence (unclassified : List RefRow) (cdc : List CdcEntry) (syn : SynMap) :
    List EvidenceRow :=
  unclassified.foldl (fun acc a => acc ++ [evidenceRowFor cdc syn a]) []

/-! ## The Synonym Expansion Client `fetch_pubchem_synonyms`
(expand_synonyms_via_pubchem.py, lines 48–111)

Each attempt's interaction with the network is one of the outcomes the
`try/except` ladder distinguishes; the function receives them as an oracle
indexed by attempt number.  The result is the returned synonym list together
with the list of `time.sleep` backoff delays performed, in order. -/

inductive FetchOutcome where
  /-- `requests.get` + `raise_for_status` succeeded and `resp.json()` parsed:
  the nested `InformationList.Information` entries, each with its `Synonym`
  list. -/
  | success (infoList : List (List String))
  /-- `raise_for_status` raised `requests.exceptions.HTTPError` with this
  status code. -/
  | httpError (status : Nat)
  /-- Any other `requests.exceptions.RequestException` (timeout, connection
  error, ...). -/
  | networkError
  /-- `KeyError` / `ValueError` while decoding the JSON payload. -/
  | parseError
deriving DecidableEq

/-- The `for attempt in range(retries + 1)` loop body; `attempts` is the list
of remaining attempt indices. -/
def fetchLoop (oracle : Nat → FetchOutcome) (retries : Nat) :
    List Nat → List String × List Nat
  | [] => ([], [])
  | attempt :: rest =>
    match oracle attempt with
    | .success infoList =>
      match infoList with
      | info :: _ => (info, [])
      | [] => ([], [])
    | .httpError status =>
      if status = 404 then ([], [])
      else if attempt < retries then
        let r := fetchLoop oracle retries rest
        (r.1, 2 ^ attempt :: r.2)
      else ([], [])
    | .networkError =>
      if attempt < retries then
        let r := fetchLoop oracle retries rest
        (r.1, 2 ^ attempt :: r.2)
      else ([], [])
    | .parseError => ([], [])

/-- `fetch_pubchem_synonyms(cas_rn, retries)`: first component the returned
synonym list, second the backoff delays slept. -/
def fetchPubchemSynonyms (oracle : Nat → FetchOutcome) (retries : Nat) :
    List String × List Nat :=
  fetchLoop oracle retries (List.range (retries + 1))

/-- Classification of outcomes the code treats as transient (retried):
a non-404 HTTP error or any other request exception. -/
def transientOutcome : FetchOutcome → Prop
  | .httpError status => status ≠ 404
  | .networkError => True
  | _ => False

/-! ## The Minimal-Reference Builder CAS join
(build_minimal_pesticide_reference.py, lines 146–181)

`cas_map` is a Python dict: insertion keeps a key's original position,
re-assignment overwrites the value in place.  A missing `cas_rn` (pandas
`NaN`, written back as the empty CSV field) is modelled as `""`. -/

structure CuratedRow where
  analyte_name : String
  cas_rn : String
  cas_verified_source : String
deriving DecidableEq

def dinsert (k v : String) : List (String × String) → List (String × String)
  | [] => [(k, v)]
  | (k0, v0) :: rest =>
    if k0 = k then (k, v) :: rest else (k0, v0) :: dinsert k v rest

def dlookup (k : String) : List (String × String) → Option String
  | [] => none
  | (k0, v0) :: rest => if k0 = k then some v0 else dlookup k rest

/-- `_normalize_for_matching` of the build script is the same
lowercase-alphanumerics normalizer as `_normalize` of pesticide_context. -/
def normalizeForMatching (s : String) : String := String.mk (normStrict s.data)

/-- The two `cas_map` loops: raw curated analyte names first, then their
normalized forms. -/
def buildCasMap (curated : List CuratedRow) : List (String × String) :=
  let m1 := curated.foldl (fun m r => dinsert r.analyte_name r.cas_rn m) []
  curated.foldl (fun m r => dinsert (normalizeForMatching r.analyte_name) r.cas_rn m) m1

/-- The partial-match loop of `find_cas`: first key whose normalized form
contains or is contained in the normalized discovered name. -/
def firstPartialMatch (norm : String) : List (String × String) → Option String
  | [] => none
  | (key, cas) :: rest =>
    if isSubstr (normStrict key.data) norm.data || isSubstr norm.data (normStrict key.data) then
      some cas
    else firstPartialMatch norm rest

/-- `find_cas(row)`: variable name, then normalized analyte name, then
partial containment, in that order. -/
def findCas (casMap : List (String × String)) (varName analyteNameNormalized : String) :
    Option String :=
  match dlookup varName casMap with
  | some cas => some cas
  | none =>
    let norm := normalizeForMatching analyteNameNormalized
    match dlookup norm casMap with
    | some cas => some cas
    | none => firstPartialMatch norm casMap

/-- The `cas_rn` / `cas_verified_source` cells the builder writes for one
variable row: the join result and
`"pubchem_api" if pd.notna(x) and x else ""`.  When `df_curated` is empty
both columns are set to `""` without running the join. -/
def casFields (curated : List CuratedRow) (varName analyteNameNormalized : String) :
    String × String :=
  if curated = [] then ("", "")
  else
    match findCas (buildCasMap curated) varName analyteNameNormalized with
    | some cas => (cas, if cas ≠ "" then "pubchem_api" else "")
    | none => ("", "")

def dmpRec : PesticideAnalyte :=
  ⟨"URXDMP", "DMP", "814-24-8", "", "urine", "ug/L", 1999, 2018, 0,
   "Organophosphate metabolite", "", "", ""⟩

/-- The invariant carried by the `best` accumulator of `suggest_analytes`:
every stored pair is a label whose normalized form contains the normalized
partial with score = length difference, and labels are distinct. -/
def goodAcc (p : List Char) (acc : List (Nat × String)) : Prop :=
  (∀ x ∈ acc, isSubstr p (normStrict x.2.data) = true ∧
    x.1 + p.length = (normStrict x.2.data).length) ∧
  (acc.map Prod.snd).Nodup

def ddeRecA : PesticideAnalyte :=
  ⟨"LBXDDE", "p,p'-DDE", "72-55-9", "pubchem_api", "serum", "ng/g", 1999, 2004, 3,
   "Pesticides - Organochlorine Pesticides - Serum", "", "", ""⟩

def ddeRecB : PesticideAnalyte :=
  ⟨"LBXDDT", "p,p'-DDT", "50-29-3", "pubchem_api", "serum", "ng/g", 1999, 2004, 3,
   "Pesticides - Organochlorine Pesticides - Serum", "", "", ""⟩

/-! # Theorems -/

theorem toNat_pyLower_upper (c : Char) (h : 65 ≤ c.toNat ∧ c.toNat ≤ 90) :
    (pyLower c).toNat = c.toNat + 32 := by
  have hv : (c.toNat + 32).isValidChar := by
    left
    omega
  simp only [pyLower, if_pos h]
  unfold Char.ofNat
  rw [dif_pos hv]
  rfl

theorem pyLower_eq_self (c : Char) (h : ¬(65 ≤ c.toNat ∧ c.toNat ≤ 90)) : pyLower c = c := by
  simp only [pyLower, if_neg h]

theorem pyLower_not_upper (c : Char) : ¬(65 ≤ (pyLower c).toNat ∧ (pyLower c).toNat ≤ 90) := by
  by_cases h : 65 ≤ c.toNat ∧ c.toNat ≤ 90
  · have := toNat_pyLower_upper c h
    omega
  · rw [pyLower_eq_self c h]
    exact h

theorem pyLower_idem (c : Char) : pyLower (pyLower c) = pyLower c :=
  pyLower_eq_self _ (pyLower_not_upper c)

theorem pyLower_of_lowerAlnum (c : Char) (h : isLowerAlnumCh c = true) : pyLower c = c := by
  apply pyLower_eq_self
  simp only [isLowerAlnumCh, Bool.or_eq_true, Bool.and_eq_true, decide_eq_true_eq] at h
  omega

theorem map_eq_self_of_mem {α : Type} {f : α → α} :
    ∀ {l : List α}, (∀ c ∈ l, f c = c) → l.map f = l
  | [], _ => rfl
  | a :: as, h => by
    rw [List.map_cons, h a (List.mem_cons_self a as),
      map_eq_self_of_mem (fun c hc => h c (List.mem_cons_of_mem a hc))]

theorem normStrict_idem (l : List Char) : normStrict (normStrict l) = normStrict l := by
  have hmem : ∀ c ∈ normStrict l, isLowerAlnumCh c = true := by
    intro c hc
    exact List.of_mem_filter hc
  have hmap : (normStrict l).map pyLower = normStrict l :=
    map_eq_self_of_mem (fun c hc => pyLower_of_lowerAlnum c (hmem c hc))
  show ((normStrict l).map pyLower).filter isLowerAlnumCh = normStrict l
  rw [hmap, List.filter_eq_self.mpr hmem]

theorem wsOkGo_weaken (l : List Char) (b : Bool) (h : wsOkGo b l = true) :
    wsOkGo false l = true := by
  cases b with
  | false => exact h
  | true =>
    cases l with
    | nil => rfl
    | cons c cs =>
      by_cases hc : isSpaceCh c = true
      · simp [wsOkGo, hc] at h
      · simpa only [wsOkGo, if_neg hc] using h

theorem wsOkGo_append_left (m : List Char) :
    ∀ (t : List Char) (b : Bool), wsOkGo b (m ++ t) = true → wsOkGo b m = true := by
  induction m with
  | nil => intro t b _; rfl
  | cons c m ih =>
    intro t b h
    by_cases hc : isSpaceCh c = true
    · simp only [List.cons_append, wsOkGo, if_pos hc, Bool.and_eq_true] at h ⊢
      exact ⟨h.1, ih t true h.2⟩
    · simp only [List.cons_append, wsOkGo, if_neg hc] at h ⊢
      exact ih t false h

theorem wsOkGo_suffix (t : List Char) :
    ∀ (m : List Char) (b : Bool), wsOkGo b (t ++ m) = true → wsOkGo false m = true := by
  induction t with
  | nil => intro m b h; exact wsOkGo_weaken m b h
  | cons c t ih =>
    intro m b h
    by_cases hc : isSpaceCh c = true
    · simp only [List.cons_append, wsOkGo, if_pos hc, Bool.and_eq_true] at h
      exact ih m true h.2
    · simp only [List.cons_append, wsOkGo, if_neg hc] at h
      exact ih m false h

theorem wsOkGo_squeezeGo (l : List Char) : ∀ b, wsOkGo b (squeezeGo b l) = true := by
  induction l with
  | nil => intro b; rfl
  | cons c cs ih =>
    intro b
    by_cases hc : isSpaceCh c = true
    · cases b with
      | true => simpa only [squeezeGo, if_pos hc, if_pos rfl] using ih true
      | false =>
        simp only [squeezeGo, if_pos hc, if_neg (Bool.false_ne_true)]
        have hsp : isSpaceCh ' ' = true := by decide
        simp only [wsOkGo, if_pos hsp, Bool.and_eq_true]
        exact ⟨by decide, ih true⟩
    · simp only [squeezeGo, if_neg hc, wsOkGo, if_neg hc]
      exact ih false

theorem squeezeGo_of_wsOkGo (l : List Char) :
    ∀ b, wsOkGo b l = true → squeezeGo b l = l := by
  induction l with
  | nil => intro b _; rfl
  | cons c cs ih =>
    intro b h
    by_cases hc : isSpaceCh c = true
    · simp only [wsOkGo, if_pos hc, Bool.and_eq_true, Bool.not_eq_true', beq_iff_eq] at h
      obtain ⟨⟨hc', hb⟩, hrest⟩ := h
      subst hb
      subst hc'
      simp only [squeezeGo, if_pos hc, if_neg (Bool.false_ne_true)]
      rw [ih true hrest]
    · simp only [squeezeGo, if_neg hc, wsOkGo, if_neg hc] at *
      rw [ih false h]

theorem wsOkGo_stripWS (l : List Char) (h : wsOkGo false l = true) :
    wsOkGo false (stripWS l) = true := by
  obtain ⟨t, ht⟩ := List.dropWhile_suffix (l := l) isSpaceCh
  have hA : wsOkGo false (l.dropWhile isSpaceCh) = true :=
    wsOkGo_suffix t _ false (by rw [ht]; exact h)
  obtain ⟨u, hu⟩ := List.dropWhile_suffix (l := (l.dropWhile isSpaceCh).reverse) isSpaceCh
  have hA' : l.dropWhile isSpaceCh = stripWS l ++ u.reverse := by
    have h' := congrArg List.reverse hu
    simpa [stripWS, List.reverse_append] using h'.symm
  exact wsOkGo_append_left (stripWS l) u.reverse false (by rw [← hA']; exact hA)

theorem dropWhile_dropWhile (p : Char → Bool) (l : List Char) :
    (l.dropWhile p).dropWhile p = l.dropWhile p := by
  induction l with
  | nil => rfl
  | cons c cs ih =>
    by_cases h : p c
    · simp [List.dropWhile_cons, h, ih]
    · simp [List.dropWhile_cons, h]

theorem dropWhile_of_dropWhile_fix (p : Char → Bool) (l : List Char)
    (h : l.dropWhile p = l) : ∀ m, (∃ u, l = m ++ u) → m.dropWhile p = m := by
  intro m hm
  obtain ⟨u, hu⟩ := hm
  cases m with
  | nil => rfl
  | cons c m' =>
    have hc : p c = false := by
      by_contra hpc
      have hpc' : p c = true := by
        cases hp : p c
        · exact absurd hp hpc
        · rfl
      have : l.dropWhile p = (m' ++ u).dropWhile p := by
        rw [hu, List.cons_append, List.dropWhile_cons, if_pos hpc']
      have hlen : l.length ≤ (m' ++ u).length := by
        rw [h] at this
        calc l.length = ((m' ++ u).dropWhile p).length := by rw [← this]
        _ ≤ (m' ++ u).length := (List.dropWhile_sublist p).length_le
      rw [hu] at hlen
      simp at hlen
    rw [List.dropWhile_cons, if_neg (by simp [hc])]

/-- The output of `stripWS` has no leading whitespace. -/
theorem dropWhile_stripWS (l : List Char) :
    (stripWS l).dropWhile isSpaceCh = stripWS l := by
  have hA : (l.dropWhile isSpaceCh).dropWhile isSpaceCh = l.dropWhile isSpaceCh :=
    dropWhile_dropWhile isSpaceCh l
  obtain ⟨u, hu⟩ := List.dropWhile_suffix (l := (l.dropWhile isSpaceCh).reverse) isSpaceCh
  have hsplit : l.dropWhile isSpaceCh = stripWS l ++ u.reverse := by
    have := congrArg List.reverse hu
    simpa [stripWS, List.reverse_append] using this.symm
  exact dropWhile_of_dropWhile_fix isSpaceCh _ hA (stripWS l) ⟨u.reverse, hsplit⟩

theorem stripWS_stripWS (l : List Char) : stripWS (stripWS l) = stripWS l := by
  have h1 : (stripWS l).dropWhile isSpaceCh = stripWS l := dropWhile_stripWS l
  have h2 : (stripWS l).reverse.dropWhile isSpaceCh = (stripWS l).reverse := by
    have : (stripWS l).reverse = (l.dropWhile isSpaceCh).reverse.dropWhile isSpaceCh := by
      simp [stripWS]
    rw [this]
    exact dropWhile_dropWhile isSpaceCh _
  calc stripWS (stripWS l)
      = (((stripWS l).dropWhile isSpaceCh).reverse.dropWhile isSpaceCh).reverse := rfl
    _ = ((stripWS l).reverse.dropWhile isSpaceCh).reverse := by rw [h1]
    _ = (stripWS l).reverse.reverse := by rw [h2]
    _ = stripWS l := List.reverse_reverse _

theorem mem_squeezeGo (l : List Char) :
    ∀ b c, c ∈ squeezeGo b l → c = ' ' ∨ c ∈ l := by
  induction l with
  | nil => intro b c hc; simp [squeezeGo] at hc
  | cons a as ih =>
    intro b c hc
    by_cases ha : isSpaceCh a = true
    · cases b with
      | true =>
        simp only [squeezeGo, if_pos ha, if_pos] at hc
        rcases ih true c hc with h | h
        · exact Or.inl h
        · exact Or.inr (List.mem_cons_of_mem a h)
      | false =>
        simp only [squeezeGo, if_pos ha, if_neg (Bool.false_ne_true)] at hc
        rcases List.mem_cons.mp hc with h | h
        · exact Or.inl h
        · rcases ih true c h with h' | h'
          · exact Or.inl h'
          · exact Or.inr (List.mem_cons_of_mem a h')
    · simp only [squeezeGo, if_neg ha] at hc
      rcases List.mem_cons.mp hc with h | h
      · exact Or.inr (h ▸ List.mem_cons_self a as)
      · rcases ih false c h with h' | h'
        · exact Or.inl h'
        · exact Or.inr (List.mem_cons_of_mem a h')

theorem mem_stripWS (l : List Char) (c : Char) (hc : c ∈ stripWS l) : c ∈ l := by
  have h1 : c ∈ (l.dropWhile isSpaceCh).reverse.dropWhile isSpaceCh := by
    simpa [stripWS] using hc
  have h2 : c ∈ l.dropWhile isSpaceCh :=
    List.mem_reverse.mp (List.dropWhile_subset _ h1)
  exact List.dropWhile_subset _ h2

theorem mem_normalizeName (l : List Char) (c : Char) (hc : c ∈ normalizeName l) :
    pyLower c = c ∧ keepNameCh c = true := by
  unfold normalizeName at hc
  by_cases h0 : l = []
  · rw [if_pos h0] at hc
    simp at hc
  · rw [if_neg h0] at hc
    have h1 := mem_stripWS _ c hc
    rcases mem_squeezeGo _ false c h1 with h | h
    · subst h
      exact ⟨by decide, by decide⟩
    · have hk : keepNameCh c = true := List.of_mem_filter h
      have hm : c ∈ l.map pyLower := List.mem_of_mem_filter h
      obtain ⟨d, _, hd⟩ := List.mem_map.mp hm
      exact ⟨hd ▸ pyLower_idem d, hk⟩

theorem normalizeName_idem (l : List Char) :
    normalizeName (normalizeName l) = normalizeName l := by
  by_cases h0 : l = []
  · subst h0
    rfl
  · by_cases hr : normalizeName l = []
    · rw [hr]
      rfl
    · have hfix := mem_normalizeName l
      conv_lhs => rw [normalizeName, if_neg hr]
      rw [map_eq_self_of_mem (fun c hc => (hfix c hc).1),
        List.filter_eq_self.mpr (fun c hc => (hfix c hc).2)]
      have hws : wsOkGo false (normalizeName l) = true := by
        rw [normalizeName, if_neg h0]
        exact wsOkGo_stripWS _ (wsOkGo_squeezeGo _ false)
      have hsq : squeezeSpaces (normalizeName l) = normalizeName l :=
        squeezeGo_of_wsOkGo _ false hws
      rw [hsq]
      conv_lhs => rw [normalizeName, if_neg h0]
      conv_rhs => rw [normalizeName, if_neg h0]
      exact stripWS_stripWS _

theorem isPrefixChk_refl (l : List Char) : isPrefixChk l l = true := by
  induction l with
  | nil => rfl
  | cons a as ih => simp [isPrefixChk, ih]

theorem isSubstr_refl (l : List Char) : isSubstr l l = true := by
  cases l with
  | nil => rfl
  | cons a as => simp [isSubstr, isPrefixChk_refl]

theorem length_le_of_isPrefixChk (n : List Char) :
    ∀ h : List Char, isPrefixChk n h = true → n.length ≤ h.length := by
  induction n with
  | nil => intro h _; simp
  | cons a as ih =>
    intro h hp
    cases h with
    | nil => simp [isPrefixChk] at hp
    | cons b bs =>
      simp only [isPrefixChk, Bool.and_eq_true] at hp
      simpa using ih bs hp.2

theorem length_le_of_isSubstr (n : List Char) :
    ∀ h : List Char, isSubstr n h = true → n.length ≤ h.length := by
  intro h
  induction h with
  | nil => intro hs; exact length_le_of_isPrefixChk n [] hs
  | cons b bs ih =>
    intro hs
    simp only [isSubstr, Bool.or_eq_true] at hs
    rcases hs with hp | hs
    · exact length_le_of_isPrefixChk n _ hp
    · exact (ih hs).trans (by simp)

/-! # Claim theorems -/

/-- C8: Both normalization functions are idempotent: for every string `s`,
`_normalize(_normalize(s)) == _normalize(s)` (strict alphanumeric-only mode)
and `_normalize_name(_normalize_name(s)) == _normalize_name(s)`
(punctuation-light mode preserving hyphens and commas). -/
theorem c8_normalizers_idempotent (s : List Char) :
    normStrict (normStrict s) = normStrict s ∧
      normalizeName (normalizeName s) = normalizeName s :=
  ⟨normStrict_idem s, normalizeName_idem s⟩

theorem findAnalyteGo_eq_none (qn : List Char) :
    ∀ l : List PesticideAnalyte,
      findAnalyteGo qn l = none ↔ ∀ a ∈ l, matchesQuery qn a = false := by
  intro l
  induction l with
  | nil => simp [findAnalyteGo]
  | cons a rest ih =>
    by_cases h : matchesQuery qn a = true
    · simp [findAnalyteGo, h]
    · have h' : matchesQuery qn a = false := by
        cases hm : matchesQuery qn a
        · rfl
        · exact absurd hm h
      simp [findAnalyteGo, h', ih]

theorem findAnalyteGo_eq_some (qn : List Char) :
    ∀ (l : List PesticideAnalyte) (a : PesticideAnalyte), findAnalyteGo qn l = some a →
      matchesQuery qn a = true ∧
        ∃ pre suf, l = pre ++ a :: suf ∧ ∀ b ∈ pre, matchesQuery qn b = false := by
  intro l
  induction l with
  | nil => intro a h; simp [findAnalyteGo] at h
  | cons x rest ih =>
    intro a h
    by_cases hx : matchesQuery qn x = true
    · rw [findAnalyteGo, if_pos hx] at h
      obtain rfl : x = a := by injection h
      exact ⟨hx, [], rest, rfl, by simp⟩
    · have hx' : matchesQuery qn x = false := by
        cases hm : matchesQuery qn x
        · rfl
        · exact absurd hm hx
      rw [findAnalyteGo, if_neg (by simp [hx'])] at h
      obtain ⟨hm, pre, suf, hsplit, hpre⟩ := ih a h
      refine ⟨hm, x :: pre, suf, by rw [hsplit, List.cons_append], ?_⟩
      intro b hb
      rcases List.mem_cons.mp hb with rfl | hb
      · exact hx'
      · exact hpre b hb

theorem matchesQuery_iff (qn : List Char) (a : PesticideAnalyte) :
    matchesQuery qn a = true ↔
      (qn = normStrict a.analyte_name.data ∨ qn = normStrict a.cas_rn.data ∨
        qn = normStrict a.variable_name.data) := by
  simp [matchesQuery, Bool.or_eq_true, or_assoc]

/-- C10: `find_analyte` returns the first record in list order whose
normalized `analyte_name`, normalized `cas_rn` or normalized `variable_name`
equals the normalized query, and `none` when no record matches; since the
normalization strips all non-alphanumerics after lowercasing, a CAS number
matches with its hyphens removed and variable codes match
case-insensitively. -/
theorem c10_find_analyte_first_match (query : String) (l : List PesticideAnalyte) :
    (findAnalyte query l = none ↔
      ∀ a ∈ l, ¬(normStrict query.data = normStrict a.analyte_name.data ∨
        normStrict query.data = normStrict a.cas_rn.data ∨
        normStrict query.data = normStrict a.variable_name.data)) ∧
    (∀ a, findAnalyte query l = some a →
      (normStrict query.data = normStrict a.analyte_name.data ∨
        normStrict query.data = normStrict a.cas_rn.data ∨
        normStrict query.data = normStrict a.variable_name.data) ∧
      ∃ pre suf, l = pre ++ a :: suf ∧
        ∀ b ∈ pre, ¬(normStrict query.data = normStrict b.analyte_name.data ∨
          normStrict query.data = normStrict b.cas_rn.data ∨
          normStrict query.data = normStrict b.variable_name.data)) ∧
    normStrict "814-24-8".data = normStrict "814248".data ∧
    normStrict "urx3pba".data = normStrict "URX3PBA".data := by
  refine ⟨?_, ?_, by decide, by decide⟩
  · rw [show findAnalyte query l = findAnalyteGo (normStrict query.data) l from rfl,
      findAnalyteGo_eq_none]
    constructor
    · intro h a ha
      rw [← matchesQuery_iff]
      simp [h a ha]
    · intro h a ha
      cases hm : matchesQuery (normStrict query.data) a
      · rfl
      · exact absurd ((matchesQuery_iff _ a).mp hm) (h a ha)
  · intro a h
    obtain ⟨hm, pre, suf, hsplit, hpre⟩ :=
      findAnalyteGo_eq_some (normStrict query.data) l a h
    refine ⟨(matchesQuery_iff _ a).mp hm, pre, suf, hsplit, ?_⟩
    intro b hb
    rw [← matchesQuery_iff]
    simp [hpre b hb]

theorem c10_find_analyte_first_match_witness :
    normStrict "814-24-8".data = normStrict dmpRec.analyte_name.data ∨
      normStrict "814-24-8".data = normStrict dmpRec.cas_rn.data ∨
      normStrict "814-24-8".data = normStrict dmpRec.variable_name.data :=
  ((c10_find_analyte_first_match "814-24-8" [dmpRec]).2.1 dmpRec (by decide)).1

/-- C4: The ranked candidate list returned by
`find_classification_candidates` is sorted by score descending with ties
broken by the fixed method priority (`candLE`), and that priority places
`pubchem_synonym` before `exact_match` before `fuzzy`. -/
theorem c4_result_ordering (analyte : String) (cdc : List CdcEntry) (syn : SynMap)
    (threshold : ℚ) :
    List.Sorted candLE (findClassificationCandidates analyte cdc syn threshold) ∧
      methodPriority "pubchem_synonym" < methodPriority "exact_match" ∧
      methodPriority "exact_match" < methodPriority "fuzzy" :=
  ⟨List.sorted_insertionSort candLE _, by decide, by decide⟩

theorem mem_strategy1_method (analyte : String) (cdc : List CdcEntry) (syn : SynMap)
    (c : Candidate) (hc : c ∈ strategy1 analyte cdc syn) :
    c.match_method = "pubchem_synonym" := by
  unfold strategy1 at hc
  split at hc
  · simp at hc
  · obtain ⟨e, _, he⟩ := List.mem_filterMap.mp hc
    split at he
    · split at he
      · injection he with h
        subst h
        rfl
      · simp at he
    · simp at he

theorem mem_strategy2_method (analyte : String) (cdc : List CdcEntry) (syn : SynMap)
    (c : Candidate) (hc : c ∈ strategy2 analyte cdc syn) :
    c.match_method = "exact_match" ∨ c.match_method = "pubchem_synonym" := by
  unfold strategy2 at hc
  obtain ⟨e, _, he⟩ := List.mem_filterMap.mp hc
  split at he
  · injection he with h
    subst h
    exact Or.inl rfl
  · split at he
    · split at he
      · injection he with h
        subst h
        exact Or.inr rfl
      · simp at he
    · simp at he

theorem mem_strategy3 (analyte : String) (cdc : List CdcEntry) (threshold : ℚ)
    (c : Candidate) (hc : c ∈ strategy3 analyte cdc threshold) :
    c.match_method = "fuzzy" ∧ threshold ≤ c.score := by
  unfold strategy3 at hc
  obtain ⟨e, _, he⟩ := List.mem_filterMap.mp hc
  split at he
  · rename_i hs
    injection he with h
    subst h
    exact ⟨rfl, hs⟩
  · simp at he

theorem mem_findClassificationCandidates (analyte : String) (cdc : List CdcEntry)
    (syn : SynMap) (threshold : ℚ) (c : Candidate)
    (hc : c ∈ findClassificationCandidates analyte cdc syn threshold) :
    c ∈ (if strategy1 analyte cdc syn ++ strategy2 analyte cdc syn = []
      then strategy3 analyte cdc threshold
      else strategy1 analyte cdc syn ++ strategy2 analyte cdc syn) :=
  (List.perm_insertionSort candLE _).mem_iff.mp hc

/-- C2 counterexample: on analyte `"ddt"` with a synonym index bridging
`"ddt"` to `"DDT"` and a CDC list containing `"ddt"`, the synonym-bridge tier
produces a candidate, yet the returned list also contains an `exact_match`
candidate — the exact-name tier was still consulted, so the tiers are not
strictly ordered between tiers 1 and 2. -/
theorem c2_tier_strictness_counterexample :
    strategy1 "ddt" [⟨"ddt", "Organochlorine", ""⟩] [("ddt".toList, ["DDT"])] ≠ [] ∧
      "exact_match" ∈ (findClassificationCandidates "ddt" [⟨"ddt", "Organochlorine", ""⟩]
        [("ddt".toList, ["DDT"])] (mkRat 3 10)).map Candidate.match_method := by
  constructor
  · decide
  · decide

/-- C2 (amended): strategies 1 (synonym-bridge) and 2 (exact/direct-synonym)
are both always evaluated and their candidates combined; only the fuzzy tier
is gated: it is consulted exactly when strategies 1–2 produced no candidate.
In particular the fuzzy tier is never invoked when a synonym-bridge or exact
match exists for the analyte. -/
theorem c2_tier_strictness_amended (analyte : String) (cdc : List CdcEntry)
    (syn : SynMap) (threshold : ℚ) :
    (strategy1 analyte cdc syn ++ strategy2 analyte cdc syn ≠ [] →
      ∀ c ∈ findClassificationCandidates analyte cdc syn threshold,
        c.match_method ≠ "fuzzy") ∧
    (strategy1 analyte cdc syn ++ strategy2 analyte cdc syn = [] →
      findClassificationCandidates analyte cdc syn threshold =
        List.insertionSort candLE (strategy3 analyte cdc threshold)) := by
  constructor
  · intro hne c hc
    have hm := mem_findClassificationCandidates analyte cdc syn threshold c hc
    rw [if_neg hne] at hm
    rcases List.mem_append.mp hm with h1 | h2
    · rw [mem_strategy1_method analyte cdc syn c h1]
      decide
    · rcases mem_strategy2_method analyte cdc syn c h2 with h | h <;> rw [h] <;> decide
  · intro hnil
    unfold findClassificationCandidates
    rw [if_pos hnil]

theorem c2_tier_strictness_amended_witness :
    ∀ c ∈ findClassificationCandidates "ddt" [⟨"ddt", "Organochlorine", ""⟩]
      [("ddt".toList, ["DDT"])] (mkRat 3 10), c.match_method ≠ "fuzzy" :=
  (c2_tier_strictness_amended "ddt" [⟨"ddt", "Organochlorine", ""⟩]
    [("ddt".toList, ["DDT"])] (mkRat 3 10)).1 (by decide)

theorem mem_appendExtras_of_mem :
    ∀ (es cs : List String) (x : String), x ∈ cs → x ∈ appendExtras cs es := by
  intro es
  induction es with
  | nil => intro cs x hx; exact hx
  | cons e es ih =>
    intro cs x hx
    show x ∈ appendExtras (if e ∈ cs then cs else cs ++ [e]) es
    apply ih
    by_cases he : e ∈ cs
    · rwa [if_pos he]
    · rw [if_neg he]
      exact List.mem_append_left _ hx

theorem find?_eq_none_of_all_false (fsEx : String → Bool) (l : List String)
    (h : ∀ c ∈ l, fsEx c = false) : l.find? fsEx = none :=
  List.find?_eq_none.mpr fun x hx => by simp [h x hx]

/-- C5: With the default path the Cascading Loader resolves to the first
existing file in the candidate order (the fixed cascade followed by
glob-discovered extras); it fails only when every candidate is absent; and a
caller-supplied explicit path that is absent falls back to the shim before
failing.  The resolution is a pure function of the file-system contents,
hence deterministic. -/
theorem c5_cascading_loader (fsEx : String → Bool) (globExtras : List String) :
    (∀ c, (appendExtras fixedCandidates globExtras).find? fsEx = some c →
      resolveReference fsEx globExtras REFERENCE_CSV = .ok c) ∧
    ((∃ e, resolveReference fsEx globExtras REFERENCE_CSV = .error e) ↔
      ∀ c ∈ appendExtras fixedCandidates globExtras, fsEx c = false) ∧
    (∀ p, p ≠ REFERENCE_CSV → fsEx p = false → fsEx REFERENCE_CSV_SHIM = true →
      resolveReference fsEx globExtras p = .ok REFERENCE_CSV_SHIM) := by
  have hok : ∀ c, (appendExtras fixedCandidates globExtras).find? fsEx = some c →
      resolveReference fsEx globExtras REFERENCE_CSV = .ok c := by
    intro c hfind
    have hc : fsEx c = true := List.find?_some hfind
    have hcas : cascadeStep fsEx globExtras REFERENCE_CSV = c := by
      unfold cascadeStep
      rw [if_pos rfl, hfind]
    have hfb : fallbackStep fsEx c = c := by
      unfold fallbackStep
      rw [if_pos hc]
    unfold resolveReference
    rw [hcas, hfb, if_pos hc]
  refine ⟨hok, ⟨?_, ?_⟩, ?_⟩
  · intro ⟨e, he⟩ c hc
    cases hf : fsEx c with
    | false => rfl
    | true =>
      obtain ⟨c', hfind⟩ : ∃ c', (appendExtras fixedCandidates globExtras).find? fsEx = some c' := by
        cases hq : (appendExtras fixedCandidates globExtras).find? fsEx with
        | some c' => exact ⟨c', rfl⟩
        | none =>
          have := List.find?_eq_none.mp hq c hc
          rw [hf] at this
          exact absurd rfl this
      rw [hok c' hfind] at he
      exact absurd he (by simp)
  · intro hall
    have hfind : (appendExtras fixedCandidates globExtras).find? fsEx = none :=
      find?_eq_none_of_all_false fsEx _ hall
    have hshim : fsEx REFERENCE_CSV_SHIM = false :=
      hall _ (mem_appendExtras_of_mem globExtras fixedCandidates _ (by decide))
    have hleg : fsEx LEGACY_FLAT_MINIMAL = false :=
      hall _ (mem_appendExtras_of_mem globExtras fixedCandidates _ (by decide))
    have hself : fsEx REFERENCE_CSV = false :=
      hall _ (mem_appendExtras_of_mem globExtras fixedCandidates _ (by decide))
    have hcas : cascadeStep fsEx globExtras REFERENCE_CSV = REFERENCE_CSV := by
      unfold cascadeStep
      rw [if_pos rfl, hfind]
    have hfb : fallbackStep fsEx REFERENCE_CSV = REFERENCE_CSV := by
      unfold fallbackStep
      rw [if_neg (by simp [hself])]
      rw [find?_eq_none_of_all_false fsEx _ ?_]
      intro c hc
      rcases List.mem_cons.mp hc with rfl | hc
      · exact hshim
      · rcases List.mem_cons.mp hc with rfl | hc
        · exact hleg
        · simp at hc
    refine ⟨REFERENCE_CSV, ?_⟩
    unfold resolveReference
    rw [hcas, hfb, if_neg (by simp [hself])]
  · intro p hp hpf hshim
    have hcas : cascadeStep fsEx globExtras p = p := by
      unfold cascadeStep
      rw [if_neg hp]
    have hfb : fallbackStep fsEx p = REFERENCE_CSV_SHIM := by
      unfold fallbackStep
      rw [if_neg (by simp [hpf]), List.find?_cons_of_pos _ hshim]
    unfold resolveReference
    rw [hcas, hfb, if_pos hshim]

theorem c5_cascading_loader_witness :
    resolveReference (fun q => q = REFERENCE_CSV_SHIM) [] "custom/path.csv" =
      .ok REFERENCE_CSV_SHIM :=
  (c5_cascading_loader (fun q => q = REFERENCE_CSV_SHIM) []).2.2 "custom/path.csv"
    (by decide) (by decide) (by decide)

theorem foldl_append_singleton {α β : Type} (f : α → β) :
    ∀ (l : List α) (init : List β),
      l.foldl (fun acc a => acc ++ [f a]) init = init ++ l.map f := by
  intro l
  induction l with
  | nil => intro init; simp
  | cons a as ih =>
    intro init
    rw [List.foldl_cons, ih, List.map_cons]
    simp

/-- C7: `log_evidence` writes exactly one row per unclassified input record,
in input order: the top-ranked candidate with its score and match method when
at least one candidate survives, and otherwise a row with empty candidate
fields, `match_method="none"` and similarity score `0.0`.  As a pure function
of its inputs it leaves the source reference records untouched. -/
theorem c7_log_evidence (unclassified : List RefRow) (cdc : List CdcEntry) (syn : SynMap) :
    (logEvidence unclassified cdc syn).length = unclassified.length ∧
    logEvidence unclassified cdc syn = unclassified.map (evidenceRowFor cdc syn) ∧
    (∀ a : RefRow,
      (findClassificationCandidates a.analyte_name cdc syn (mkRat 1 4) = [] →
        evidenceRowFor cdc syn a =
          ⟨a.variable_name, a.analyte_name, normalizeName a.analyte_name.data,
           "", "", "", 0, "none"⟩) ∧
      (∀ c rest,
        findClassificationCandidates a.analyte_name cdc syn (mkRat 1 4) = c :: rest →
          evidenceRowFor cdc syn a =
            ⟨a.variable_name, a.analyte_name, normalizeName a.analyte_name.data,
             c.cdc_name, c.chemical_class, c.chemical_subclass, c.score,
             c.match_method⟩)) := by
  have hmap : logEvidence unclassified cdc syn = unclassified.map (evidenceRowFor cdc syn) := by
    unfold logEvidence
    rw [foldl_append_singleton]
    simp
  refine ⟨by rw [hmap]; exact List.length_map _ _, hmap, ?_⟩
  intro a
  constructor
  · intro hnil
    unfold evidenceRowFor
    rw [hnil]
  · intro c rest hcons
    unfold evidenceRowFor
    rw [hcons]

theorem c7_log_evidence_witness :
    evidenceRowFor [] [] ⟨"URX999", "Unmatchable", ""⟩ =
      ⟨"URX999", "Unmatchable", normalizeName "Unmatchable".data, "", "", "", 0, "none"⟩ :=
  ((c7_log_evidence [⟨"URX999", "Unmatchable", ""⟩] [] []).2.2
    ⟨"URX999", "Unmatchable", ""⟩).1 (by decide)

theorem fetchLoop_transient_retry (oracle : Nat → FetchOutcome) (retries a : Nat)
    (rest : List Nat) (ht : transientOutcome (oracle a)) (hlt : a < retries) :
    fetchLoop oracle retries (a :: rest) =
      ((fetchLoop oracle retries rest).1, 2 ^ a :: (fetchLoop oracle retries rest).2) := by
  cases ho : oracle a with
  | success infoList =>
    rw [ho] at ht
    exact absurd ht (by simp [transientOutcome])
  | httpError status =>
    rw [ho] at ht
    simp only [fetchLoop, ho, if_neg (ht : status ≠ 404), if_pos hlt]
  | networkError =>
    simp only [fetchLoop, ho, if_pos hlt]
  | parseError =>
    rw [ho] at ht
    exact absurd ht (by simp [transientOutcome])

theorem fetchLoop_transient_stop (oracle : Nat → FetchOutcome) (retries a : Nat)
    (rest : List Nat) (ht : transientOutcome (oracle a)) (hge : ¬a < retries) :
    fetchLoop oracle retries (a :: rest) = ([], []) := by
  cases ho : oracle a with
  | success infoList =>
    rw [ho] at ht
    exact absurd ht (by simp [transientOutcome])
  | httpError status =>
    rw [ho] at ht
    simp only [fetchLoop, ho, if_neg (ht : status ≠ 404), if_neg hge]
  | networkError =>
    simp only [fetchLoop, ho, if_neg hge]
  | parseError =>
    rw [ho] at ht
    exact absurd ht (by simp [transientOutcome])

/-- C6: `fetch_pubchem_synonyms` (with its default `retries = 2`) returns an
empty list immediately on an HTTP 404 without retrying or sleeping; on
persistent transient network/HTTP errors it performs exactly the two backoff
retries with delays 1s then 2s and returns an empty list after the final
failure.  Every modelled outcome of the `try/except` ladder produces a
return value, never an exception to the caller. -/
theorem c6_fetch_error_handling (oracle : Nat → FetchOutcome) :
    (oracle 0 = .httpError 404 → fetchPubchemSynonyms oracle 2 = ([], [])) ∧
    ((∀ k ≤ 2, transientOutcome (oracle k)) →
      fetchPubchemSynonyms oracle 2 = ([], [1, 2])) := by
  constructor
  · intro h404
    show fetchLoop oracle 2 (List.range 3) = ([], [])
    rw [show List.range 3 = [0, 1, 2] from by decide]
    unfold fetchLoop
    rw [h404]
    simp
  · intro htrans
    show fetchLoop oracle 2 (List.range 3) = ([], [1, 2])
    rw [show List.range 3 = [0, 1, 2] from by decide]
    rw [fetchLoop_transient_retry oracle 2 0 [1, 2] (htrans 0 (by omega)) (by omega),
      fetchLoop_transient_retry oracle 2 1 [2] (htrans 1 (by omega)) (by omega),
      fetchLoop_transient_stop oracle 2 2 [] (htrans 2 (by omega)) (by omega)]
    rfl

theorem c6_fetch_error_handling_witness :
    fetchPubchemSynonyms (fun _ => .networkError) 2 = ([], [1, 2]) :=
  (c6_fetch_error_handling (fun _ => .networkError)).2 (fun _ _ => trivial)

/-- C1 counterexample: a curated row whose own `cas_verified_source` is
`"manual"` (not externally verified) still gets its CAS joined onto a
discovered variable and stamped `cas_verified_source="pubchem_api"` — the
builder never consults the curated record's verification status. -/
theorem c1_cas_provenance_counterexample :
    casFields [⟨"DDT", "50-29-3", "manual"⟩] "LBXDDT" "DDT" =
      ("50-29-3", "pubchem_api") ∧
      (⟨"DDT", "50-29-3", "manual"⟩ : CuratedRow).cas_verified_source ≠ "pubchem_api" := by
  constructor
  · decide
  · decide

/-- C1 (amended): the builder sets `cas_verified_source="pubchem_api"`
exactly when the cascading join found a non-empty CAS string — regardless of
the curated record's own verification status; when the curated table is
empty or the join finds nothing, both `cas_rn` and `cas_verified_source` are
left empty; and `cas_verified_source` is never any value other than
`"pubchem_api"` or `""`. -/
theorem c1_cas_provenance_amended (curated : List CuratedRow) (varName an : String) :
    ((casFields curated varName an).2 = "pubchem_api" ↔
      curated ≠ [] ∧
        ∃ cas, findCas (buildCasMap curated) varName an = some cas ∧ cas ≠ "") ∧
    (curated = [] ∨ findCas (buildCasMap curated) varName an = none →
      casFields curated varName an = ("", "")) ∧
    ((casFields curated varName an).2 = "pubchem_api" ∨
      (casFields curated varName an).2 = "") := by
  by_cases hemp : curated = []
  · have hval : casFields curated varName an = ("", "") := by
      rw [casFields, if_pos hemp]
    refine ⟨?_, fun _ => hval, ?_⟩
    · rw [hval]
      constructor
      · intro h
        exact absurd h (by decide)
      · intro ⟨hne, _⟩
        exact absurd hemp hne
    · rw [hval]
      exact Or.inr rfl
  · cases hf : findCas (buildCasMap curated) varName an with
    | none =>
      have hval : casFields curated varName an = ("", "") := by
        rw [casFields, if_neg hemp, hf]
      refine ⟨?_, fun _ => hval, ?_⟩
      · rw [hval]
        constructor
        · intro h
          exact absurd h (by decide)
        · intro ⟨_, cas, hcas, _⟩
          exact absurd hcas (by simp)
      · rw [hval]
        exact Or.inr rfl
    | some cas =>
      have hval : casFields curated varName an =
          (cas, if cas ≠ "" then "pubchem_api" else "") := by
        rw [casFields, if_neg hemp, hf]
      by_cases hne : cas ≠ ""
      · have hv2 : casFields curated varName an = (cas, "pubchem_api") := by
          rw [hval, if_pos hne]
        refine ⟨?_, ?_, ?_⟩
        · rw [hv2]
          exact ⟨fun _ => ⟨hemp, cas, rfl, hne⟩, fun _ => rfl⟩
        · intro h
          rcases h with h | h
          · exact absurd h hemp
          · exact absurd h (by simp)
        · rw [hv2]
          exact Or.inl rfl
      · have hv2 : casFields curated varName an = (cas, "") := by
          rw [hval, if_neg hne]
        refine ⟨?_, ?_, ?_⟩
        · rw [hv2]
          constructor
          · intro h
            have h2 : ("" : String) = "pubchem_api" := h
            exact absurd h2 (by decide)
          · intro ⟨_, cas2, hcas2, hne2⟩
            injection hcas2 with hc
            exact absurd (show cas ≠ "" from by rw [hc]; exact hne2) hne
        · intro h
          rcases h with h | h
          · exact absurd h hemp
          · exact absurd h (by simp)
        · rw [hv2]
          exact Or.inr rfl

theorem c1_cas_provenance_amended_witness :
    (casFields [⟨"DMP", "814-24-8", "manual_no_cid"⟩] "URXDMP2" "DMP").2 = "pubchem_api" :=
  (c1_cas_provenance_amended [⟨"DMP", "814-24-8", "manual_no_cid"⟩] "URXDMP2" "DMP").1.mpr
    ⟨by decide, "814-24-8", by decide, by decide⟩

theorem head_not_space_of_dropWhile_fix (p : Char → Bool) (c : Char) (cs : List Char)
    (h : (c :: cs).dropWhile p = c :: cs) : p c = false := by
  by_contra hpc
  have hpc' : p c = true := by
    cases hp : p c
    · exact absurd hp hpc
    · rfl
  have hd : (c :: cs).dropWhile p = cs.dropWhile p := by
    rw [List.dropWhile_cons, if_pos hpc']
  have hlen : (c :: cs).length ≤ cs.length := by
    calc (c :: cs).length = ((c :: cs).dropWhile p).length := by rw [h]
    _ = (cs.dropWhile p).length := by rw [hd]
    _ ≤ cs.length := (List.dropWhile_sublist p).length_le
  simp at hlen

theorem normalizeName_dropWhile (l : List Char) :
    (normalizeName l).dropWhile isSpaceCh = normalizeName l := by
  by_cases h0 : l = []
  · subst h0
    rfl
  · rw [normalizeName, if_neg h0]
    exact dropWhile_stripWS _

theorem splitPyGo_ne_nil :
    ∀ (l cur : List Char), cur ≠ [] → splitPyGo cur l ≠ [] := by
  intro l
  induction l with
  | nil =>
    intro cur hcur
    rw [splitPyGo, if_neg hcur]
    simp
  | cons c cs ih =>
    intro cur hcur
    rw [splitPyGo]
    by_cases hc : isSpaceCh c = true
    · rw [if_pos hc, if_neg hcur]
      simp
    · rw [if_neg hc]
      exact ih (c :: cur) (by simp)

theorem splitPy_ne_nil (l : List Char) (hne : l ≠ [])
    (hfix : l.dropWhile isSpaceCh = l) : splitPy l ≠ [] := by
  cases l with
  | nil => exact absurd rfl hne
  | cons c cs =>
    have hc : isSpaceCh c = false := head_not_space_of_dropWhile_fix isSpaceCh c cs hfix
    rw [splitPy, splitPyGo, if_neg (by simp [hc])]
    exact splitPyGo_ne_nil cs [c] (by simp)

/-- C3 counterexample: for the empty string the normalized form is empty and
`_compute_similarity_score` returns `0.0`, not `1.0` — `score(x, x) == 1.0`
fails with `x = ""`. -/
theorem c3_similarity_score_counterexample :
    computeSimilarityScore "".toList "".toList ≠ 1 := by decide

/-- C3 (amended): `score(x, x) == 1.0` for every `x` whose normalized form is
non-empty (for an empty normalization the empty-input guard returns `0.0`);
whenever one normalized string contains the other the score is
`min(len)/max(len)` of the normalized strings; otherwise, for non-empty
normalizations, it is the Jaccard similarity of the whitespace-delimited
token sets; and every fuzzy-tier candidate in the ranked output scored at or
above the threshold. -/
theorem c3_similarity_score_amended :
    (∀ x : List Char, normalizeName x ≠ [] → computeSimilarityScore x x = 1) ∧
    (∀ x y : List Char,
      isSubstr (normalizeName x) (normalizeName y) = true ∨
        isSubstr (normalizeName y) (normalizeName x) = true →
      computeSimilarityScore x y =
        (min (normalizeName x).length (normalizeName y).length : ℚ) /
          (max (normalizeName x).length (normalizeName y).length : ℚ)) ∧
    (∀ x y : List Char, normalizeName x ≠ [] → normalizeName y ≠ [] →
      isSubstr (normalizeName x) (normalizeName y) = false →
      isSubstr (normalizeName y) (normalizeName x) = false →
      computeSimilarityScore x y =
        (((splitPy (normalizeName x)).toFinset ∩ (splitPy (normalizeName y)).toFinset).card : ℚ) /
          (((splitPy (normalizeName x)).toFinset ∪ (splitPy (normalizeName y)).toFinset).card : ℚ)) ∧
    (∀ (analyte : String) (cdc : List CdcEntry) (syn : SynMap) (threshold : ℚ),
      ∀ c ∈ findClassificationCandidates analyte cdc syn threshold,
        c.match_method = "fuzzy" → threshold ≤ c.score) := by
  refine ⟨?_, ?_, ?_, ?_⟩
  · intro x hx
    unfold computeSimilarityScore
    rw [if_neg (by simp [hx]), if_pos rfl]
  · intro x y hsub
    unfold computeSimilarityScore
    by_cases hx : normalizeName x = []
    · rw [if_pos (Or.inl hx), hx]
      simp
    · by_cases hy : normalizeName y = []
      · rw [if_pos (Or.inr hy), hy]
        simp
      · rw [if_neg (by simp [hx, hy])]
        by_cases heq : normalizeName x = normalizeName y
        · rw [if_pos heq, heq, min_self, max_self]
          rw [div_self]
          simp only [ne_eq, Nat.cast_eq_zero, List.length_eq_zero]
          exact hy
        · rw [if_neg heq, if_pos hsub, Rat.mkRat_eq_div]
          have hmax : max (normalizeName x).length (normalizeName y).length ≠ 0 := by
            rcases hsub with h | h
            · have := length_le_of_isSubstr _ _ h
              have hyl : (normalizeName y).length ≠ 0 := by
                simpa [List.length_eq_zero] using hy
              omega
            · have := length_le_of_isSubstr _ _ h
              have hxl : (normalizeName x).length ≠ 0 := by
                simpa [List.length_eq_zero] using hx
              omega
          push_cast
          rfl
  · intro x y hx hy h1 h2
    unfold computeSimilarityScore
    have hqt : (splitPy (normalizeName x)).toFinset ≠ ∅ := by
      rw [ne_eq, List.toFinset_eq_empty_iff]
      exact splitPy_ne_nil _ hx (normalizeName_dropWhile x)
    have hct : (splitPy (normalizeName y)).toFinset ≠ ∅ := by
      rw [ne_eq, List.toFinset_eq_empty_iff]
      exact splitPy_ne_nil _ hy (normalizeName_dropWhile y)
    have heq : normalizeName x ≠ normalizeName y := by
      intro heq
      rw [heq, isSubstr_refl] at h1
      simp at h1
    rw [if_neg (by simp [hx, hy]), if_neg heq, if_neg (by simp [h1, h2]),
      if_neg (by simp [hqt, hct]),
      if_neg (by simp [Finset.union_eq_empty, hqt, hct]), Rat.mkRat_eq_div]
    push_cast
    rfl
  · intro analyte cdc syn threshold c hc hfz
    have hm := mem_findClassificationCandidates analyte cdc syn threshold c hc
    by_cases h12 : strategy1 analyte cdc syn ++ strategy2 analyte cdc syn = []
    · rw [if_pos h12] at hm
      exact (mem_strategy3 analyte cdc threshold c hm).2
    · rw [if_neg h12] at hm
      rcases List.mem_append.mp hm with h | h
      · rw [mem_strategy1_method analyte cdc syn c h] at hfz
        exact absurd hfz (by decide)
      · rcases mem_strategy2_method analyte cdc syn c h with hme | hme <;>
          rw [hme] at hfz <;> exact absurd hfz (by decide)

theorem c3_similarity_score_amended_witness :
    computeSimilarityScore "2,4-D".toList "2,4-D".toList = 1 :=
  c3_similarity_score_amended.1 "2,4-D".toList (by decide)

theorem updateBest_mem (s : Nat) (lbl : String) :
    ∀ (acc : List (Nat × String)) (x : Nat × String),
      x ∈ updateBest s lbl acc → x ∈ acc ∨ x = (s, lbl) := by
  intro acc
  induction acc with
  | nil =>
    intro x hx
    rw [updateBest] at hx
    exact Or.inr (List.mem_singleton.mp hx)
  | cons e rest ih =>
    intro x hx
    rw [updateBest] at hx
    by_cases he : e.2 = lbl
    · rw [if_pos he] at hx
      rcases List.mem_cons.mp hx with hx | hx
      · by_cases hs : s < e.1
        · rw [if_pos hs] at hx
          exact Or.inr hx
        · rw [if_neg hs] at hx
          exact Or.inl (hx ▸ List.mem_cons_self e rest)
      · exact Or.inl (List.mem_cons_of_mem e hx)
    · rw [if_neg he] at hx
      rcases List.mem_cons.mp hx with hx | hx
      · exact Or.inl (hx ▸ List.mem_cons_self e rest)
      · rcases ih x hx with h | h
        · exact Or.inl (List.mem_cons_of_mem e h)
        · exact Or.inr h

theorem updateBest_map_snd (s : Nat) (lbl : String) :
    ∀ acc : List (Nat × String),
      (updateBest s lbl acc).map Prod.snd =
        if lbl ∈ acc.map Prod.snd then acc.map Prod.snd
        else acc.map Prod.snd ++ [lbl] := by
  intro acc
  induction acc with
  | nil => simp [updateBest]
  | cons e rest ih =>
    rw [updateBest]
    by_cases he : e.2 = lbl
    · rw [if_pos he]
      have hmem : lbl ∈ (e :: rest).map Prod.snd := by
        rw [List.map_cons, he]
        exact List.mem_cons_self _ _
      rw [if_pos hmem]
      by_cases hs : s < e.1
      · rw [if_pos hs]
        simp [he]
      · rw [if_neg hs]
    · rw [if_neg he]
      rw [List.map_cons, List.map_cons, ih]
      by_cases hmem : lbl ∈ rest.map Prod.snd
      · rw [if_pos hmem, if_pos (List.mem_cons_of_mem e.2 hmem)]
      · rw [if_neg hmem, if_neg ?_]
        · simp
        · intro hx
          rcases List.mem_cons.mp hx with hx | hx
          · exact he hx.symm
          · exact hmem hx

theorem goodAcc_updateBest (p : List Char) (acc : List (Nat × String)) (s : Nat)
    (lbl : String) (h : goodAcc p acc)
    (hsub : isSubstr p (normStrict lbl.data) = true)
    (hs : s + p.length = (normStrict lbl.data).length) :
    goodAcc p (updateBest s lbl acc) := by
  constructor
  · intro x hx
    rcases updateBest_mem s lbl acc x hx with hx | hx
    · exact h.1 x hx
    · rw [hx]
      exact ⟨hsub, hs⟩
  · rw [updateBest_map_snd]
    by_cases hmem : lbl ∈ acc.map Prod.snd
    · rw [if_pos hmem]
      exact h.2
    · rw [if_neg hmem]
      simp [List.nodup_append, h.2, hmem]

theorem goodAcc_collectBest (p : List Char) :
    ∀ (l : List PesticideAnalyte) (acc : List (Nat × String)),
      goodAcc p acc → goodAcc p (collectBest p l acc) := by
  intro l
  induction l with
  | nil => intro acc h; exact h
  | cons a rest ih =>
    intro acc h
    rw [collectBest]
    by_cases hemp : a.analyte_name = ""
    · rw [if_pos hemp]
      exact ih acc h
    · rw [if_neg hemp]
      by_cases hsub : isSubstr p (normStrict a.analyte_name.data) = true
      · rw [if_pos hsub]
        apply ih
        apply goodAcc_updateBest p acc _ _ h hsub
        have := length_le_of_isSubstr p _ hsub
        omega
      · rw [if_neg hsub]
        exact ih acc h

theorem suggest_core_props (p : List Char) (analytes : List PesticideAnalyte)
    (limit : Nat) :
    (((List.insertionSort scoreLE (collectBest p analytes [])).take limit).map
      Prod.snd).Nodup ∧
    (∀ lbl ∈ ((List.insertionSort scoreLE (collectBest p analytes [])).take limit).map
        Prod.snd, isSubstr p (normStrict lbl.data) = true) ∧
    (∀ hh tt,
      ((List.insertionSort scoreLE (collectBest p analytes [])).take limit).map
        Prod.snd = hh :: tt →
      ∀ lbl ∈ hh :: tt, (normStrict hh.data).length ≤ (normStrict lbl.data).length) := by
  have hgood : goodAcc p (collectBest p analytes []) :=
    goodAcc_collectBest p analytes [] ⟨by simp, by simp⟩
  set best := collectBest p analytes [] with hbestdef
  set sorted := List.insertionSort scoreLE best with hsorteddef
  have hperm : sorted.Perm best := List.perm_insertionSort scoreLE best
  have hmem_inv : ∀ x ∈ sorted.take limit,
      isSubstr p (normStrict x.2.data) = true ∧
        x.1 + p.length = (normStrict x.2.data).length := by
    intro x hx
    exact hgood.1 x (hperm.mem_iff.mp ((List.take_sublist limit sorted).subset hx))
  refine ⟨?_, ?_, ?_⟩
  · rw [List.map_take]
    apply List.Nodup.sublist (List.take_sublist _ _)
    exact ((hperm.map Prod.snd).symm.nodup hgood.2)
  · intro lbl hlbl
    obtain ⟨x, hx, hxlbl⟩ := List.mem_map.mp hlbl
    rw [← hxlbl]
    exact (hmem_inv x hx).1
  · intro hh tt hcons lbl hlbl
    cases hts : sorted.take limit with
    | nil => rw [hts] at hcons; simp at hcons
    | cons x xs =>
      rw [hts, List.map_cons] at hcons
      injection hcons with hx0 hxs
      have hsorted : List.Pairwise scoreLE sorted := List.sorted_insertionSort scoreLE best
      have hpw : List.Pairwise scoreLE (sorted.take limit) :=
        hsorted.sublist (List.take_sublist _ _)
      rw [hts] at hpw
      have hxall : ∀ y ∈ xs, scoreLE x y := (List.pairwise_cons.mp hpw).1
      have hxmem : x ∈ sorted.take limit := by
        rw [hts]
        exact List.mem_cons_self x xs
      rcases List.mem_cons.mp hlbl with rfl | hlbl2
      · exact Nat.le_refl _
      · rw [← hxs] at hlbl2
        obtain ⟨y, hy, hylbl⟩ := List.mem_map.mp hlbl2
        have hymem : y ∈ sorted.take limit := by
          rw [hts]
          exact List.mem_cons_of_mem x hy
        have hix := hmem_inv x hxmem
        have hiy := hmem_inv y hymem
        have hle : x.1 ≤ y.1 := hxall y hy
        rw [← hx0, ← hylbl]
        omega

/-- C9: `suggest_analytes` returns at most `limit` distinct analyte names,
each of whose normalized form contains the normalized partial, and the first
entry's normalized length is minimal among all returned entries; querying
`"dde"` against a reference containing `"p,p'-DDE"` returns a non-empty list
whose first entry contains `"DDE"` case-insensitively (here:
`normStrict "p,p'-DDE"` contains `"dde"`). -/
theorem c9_suggest_analytes (part : String) (analytes : List PesticideAnalyte)
    (limit : Nat) :
    (suggestAnalytes part analytes limit).length ≤ limit ∧
    (suggestAnalytes part analytes limit).Nodup ∧
    (∀ lbl ∈ suggestAnalytes part analytes limit,
      isSubstr (normStrict part.data) (normStrict lbl.data) = true) ∧
    (∀ hh tt, suggestAnalytes part analytes limit = hh :: tt →
      ∀ lbl ∈ hh :: tt, (normStrict hh.data).length ≤ (normStrict lbl.data).length) ∧
    suggestAnalytes "dde" [ddeRecA, ddeRecB] 5 = ["p,p'-DDE"] ∧
    isSubstr (normStrict "dde".data) (normStrict "p,p'-DDE".data) = true := by
  by_cases hp : normStrict part.data = []
  · have hout : suggestAnalytes part analytes limit = [] := by
      rw [suggestAnalytes, if_pos hp]
    rw [hout]
    refine ⟨by simp, by simp, by simp, ?_, by decide, by decide⟩
    intro hh tt hcontra
    simp at hcontra
  · have hout : suggestAnalytes part analytes limit =
        ((List.insertionSort scoreLE
          (collectBest (normStrict part.data) analytes [])).take limit).map Prod.snd := by
      rw [suggestAnalytes, if_neg hp]
    obtain ⟨hnodup, hcontains, hfirst⟩ :=
      suggest_core_props (normStrict part.data) analytes limit
    rw [hout]
    refine ⟨?_, hnodup, hcontains, hfirst, by decide, by decide⟩
    rw [List.length_map, List.length_take]
    exact min_le_left _ _

theorem c9_suggest_analytes_witness :
    isSubstr (normStrict "dde".data) (normStrict "p,p'-DDE".data) = true :=
  (c9_suggest_analytes "dde" [ddeRecA, ddeRecB] 5).2.2.1 "p,p'-DDE" (by decide)
